import Mathlib

/-!
Shallow embedding of src/utils/calculator.js from the best-cart-deal-calculator
repository, together with a verification of its specification.

Modelling conventions:

* JS numbers are modelled as exact rationals (ℚ).  The source rounds monetary
  outputs with `parseFloat(x.toFixed(2))`; this is modelled by `round2`, which
  rounds to a whole number of hundredths, ties upward (ECMAScript `toFixed`
  picks the larger candidate on a tie).
* A JS vendor object may lack fields.  `name : String` uses `""` for a
  missing or empty (falsy) name, `shipping : Option ℚ` is `none` when the
  field is missing or not a number, and `items : Option (List (String × ℚ))`
  is `none` when the `items` mapping is missing.
* The JS `selection` object and `selectedVendors` Set keep insertion order;
  they are modelled by an association list with in-place update (`upsert`)
  and an order-preserving set insertion (`addUsed`).
* `Array.prototype.sort` with comparator `(a, b) => a.total_cost - b.total_cost`
  is a stable ascending sort (guaranteed since ES2019); it is modelled by a
  stable insertion sort.
* Dividing a JS number by zero yields a non-finite number (NaN or Infinity),
  which `toFixed`/`parseFloat` propagate unchanged; a non-finite
  `percentage_saved` is modelled as `none`, a finite one as `some q`.
-/

set_option maxRecDepth 4000

deriving instance DecidableEq for Except

namespace BestCart

/-- `parseFloat(x.toFixed(2))`: round to a whole number of hundredths,
ties upward, exactly as ECMAScript `toFixed` does for values in its
non-exponential range. -/
def round2 (q : ℚ) : ℚ := (⌊q * 100 + 1/2⌋ : ℤ) / 100

/-- A vendor object as received by the calculator.  `name = ""` models a
missing/empty (falsy) `name`; `shipping = none` models a missing or
non-numeric `shipping`; `items = none` models a missing `items` mapping. -/
structure Vendor where
  name : String
  shipping : Option ℚ
  items : Option (List (String × ℚ))
deriving DecidableEq

/-- The structural vendor check of calculator.js line 44 / line 97:
`!vendor.name || typeof vendor.shipping !== 'number' || !vendor.items`. -/
def vendorValid (v : Vendor) : Bool :=
  v.name != "" && v.shipping.isSome && v.items.isSome

/-- `vendor.items[item]`; `none` models the JS value `undefined`. -/
def priceOf (v : Vendor) (item : String) : Option ℚ :=
  (v.items.getD []).lookup item

/-- The vendor's shipping fee as a number; only ever read after the structural
check has established that `shipping` is present. -/
def shippingOf (v : Vendor) : ℚ := v.shipping.getD 0

/-- The errors thrown by `calculateBestDeal` (calculator.js lines 24-63). -/
inductive CalcError where
  | emptyCart
  | emptyVendors
  | invalidVendor
  | itemUnavailable (item : String)
deriving DecidableEq

/-- The object returned by `calculateBestDeal` (calculator.js lines 77-86),
with the `breakdown` fields inlined. -/
structure BestDealResult where
  cheapest_total : ℚ
  selection : List (String × String)
  items_cost : ℚ
  shipping_cost : ℚ
  selected_vendors : List String
  total_vendors_used : Nat
deriving DecidableEq

/-- The object returned by `calculateSingleVendorCost`
(calculator.js lines 111-116). -/
structure VendorComparison where
  vendor_name : String
  items_cost : ℚ
  shipping_cost : ℚ
  total_cost : ℚ
deriving DecidableEq

/-- The `savings_analysis` object of `analyzeCartDeal`.  `percentage_saved`
is `none` when the JS computation produced a non-finite number. -/
structure SavingsAnalysis where
  vs_cheapest_single_vendor : ℚ
  vs_most_expensive_vendor : ℚ
  percentage_saved : Option ℚ
deriving DecidableEq

/-- The object returned by `analyzeCartDeal` (calculator.js lines 149-170). -/
structure Analysis where
  optimal_deal : BestDealResult
  vendor_comparisons : List VendorComparison
  savings_analysis : SavingsAnalysis
deriving DecidableEq

/-- `selection[item] = bestVendor` on a JS object: overwrite in place if the
key is present (keeping its original position), append otherwise. -/
def upsert : List (String × String) → String → String → List (String × String)
  | [], k, v => [(k, v)]
  | (k', v') :: rest, k, v =>
    if k' = k then (k', v) :: rest else (k', v') :: upsert rest k v

/-- `selectedVendors.add(bestVendor)` on a JS Set: insertion-ordered,
duplicate-free. -/
def addUsed (used : List String) (n : String) : List String :=
  if used.contains n then used else used ++ [n]

/-- The inner vendor scan of calculator.js lines 42-53 for one cart item:
validate each vendor, then replace the running best exactly when the vendor
offers the item at a strictly lower price (`bestPrice` starts at `Infinity`,
modelled by `none`). -/
def scanVendors (item : String) :
    List Vendor → Option String × Option ℚ →
    Except CalcError (Option String × Option ℚ)
  | [], best => .ok best
  | v :: vs, best =>
    if vendorValid v then
      match priceOf v item, best.2 with
      | some p, none => scanVendors item vs (some v.name, some p)
      | some p, some bp =>
        if p < bp then scanVendors item vs (some v.name, some p)
        else scanVendors item vs best
      | none, _ => scanVendors item vs best
    else .error .invalidVendor

/-- The outer item loop of calculator.js lines 37-64, accumulating the
selection object, the used-vendor set and the running items cost.
`if (bestVendor && bestPrice !== Infinity)` fails when no vendor offered the
item (and also for a falsy empty vendor name, which validation rules out). -/
def bestDealLoop (vendors : List Vendor) :
    List String → List (String × String) → List String → ℚ →
    Except CalcError (List (String × String) × List String × ℚ)
  | [], sel, used, cost => .ok (sel, used, cost)
  | item :: rest, sel, used, cost =>
    match scanVendors item vendors (none, none) with
    | .error e => .error e
    | .ok (some name, some p) =>
      if name = "" then .error (.itemUnavailable item)
      else bestDealLoop vendors rest (upsert sel item name) (addUsed used name) (cost + p)
    | .ok _ => .error (.itemUnavailable item)

/-- The shipping loop of calculator.js lines 67-72: add the shipping fee of
every vendor-list entry whose name is in the used-vendor set. -/
def shippingTotal (vendors : List Vendor) (used : List String) : ℚ :=
  vendors.foldl (fun acc v => if used.contains v.name then acc + shippingOf v else acc) 0

/-- `calculateBestDeal` of calculator.js lines 22-87. -/
def calculateBestDeal (cart : List String) (vendors : List Vendor) :
    Except CalcError BestDealResult :=
  if cart.isEmpty then .error .emptyCart
  else if vendors.isEmpty then .error .emptyVendors
  else
    match bestDealLoop vendors cart [] [] 0 with
    | .error e => .error e
    | .ok (sel, used, itemsCost) =>
      let ship := shippingTotal vendors used
      .ok {
        cheapest_total := round2 (itemsCost + ship)
        selection := sel
        items_cost := round2 itemsCost
        shipping_cost := round2 ship
        selected_vendors := used
        total_vendors_used := used.length }

/-- The accumulation loop of calculator.js lines 104-109: sum the vendor's
prices over the cart, aborting with `null` at the first missing item. -/
def itemsTotalFrom (v : Vendor) : List String → ℚ → Option ℚ
  | [], acc => some acc
  | i :: is, acc =>
    match priceOf v i with
    | none => none
    | some p => itemsTotalFrom v is (acc + p)

/-- `calculateSingleVendorCost` of calculator.js lines 96-117.  `none` models
the JS `null` ("not applicable") result.  Note that `shipping_cost` is
returned as the raw `vendor.shipping`, without rounding. -/
def calculateSingleVendorCost (cart : List String) (v : Vendor) :
    Option VendorComparison :=
  if vendorValid v then
    match itemsTotalFrom v cart 0 with
    | none => none
    | some total =>
      some {
        vendor_name := v.name
        items_cost := round2 total
        shipping_cost := shippingOf v
        total_cost := round2 (total + shippingOf v) }
  else none

/-- Insert a comparison entry into a list sorted ascending by `total_cost`,
before any entry of equal cost: combined with `sortComparisons` below this is
a stable ascending sort, the behaviour ES2019 guarantees for
`comparisons.sort((a, b) => a.total_cost - b.total_cost)`. -/
def insertSorted (c : VendorComparison) :
    List VendorComparison → List VendorComparison
  | [] => [c]
  | d :: ds =>
    if c.total_cost ≤ d.total_cost then c :: d :: ds else d :: insertSorted c ds

/-- Stable ascending sort by `total_cost` (calculator.js line 136). -/
def sortComparisons : List VendorComparison → List VendorComparison
  | [] => []
  | c :: cs => insertSorted c (sortComparisons cs)

/-- `getAllVendorComparisons` of calculator.js lines 125-137: keep the
truthy (non-`null`) single-vendor results, sorted ascending by total cost. -/
def getAllVendorComparisons (cart : List String) (vendors : List Vendor) :
    List VendorComparison :=
  sortComparisons (vendors.filterMap (calculateSingleVendorCost cart))

/-- `analyzeCartDeal` of calculator.js lines 145-171.  The savings fields
default to zero; when the comparison list is non-empty they compare its first
and last entries with the optimal total.  A zero most-expensive total makes
the JS division produce a non-finite number, modelled as `none`. -/
def analyzeCartDeal (cart : List String) (vendors : List Vendor) :
    Except CalcError Analysis :=
  match calculateBestDeal cart vendors with
  | .error e => .error e
  | .ok optimalDeal =>
    let comps := getAllVendorComparisons cart vendors
    let savings : SavingsAnalysis :=
      match comps.head?, comps.getLast? with
      | some first, some lastC =>
        { vs_cheapest_single_vendor :=
            round2 (first.total_cost - optimalDeal.cheapest_total)
          vs_most_expensive_vendor :=
            round2 (lastC.total_cost - optimalDeal.cheapest_total)
          percentage_saved :=
            if lastC.total_cost = 0 then none
            else some (round2 ((lastC.total_cost - optimalDeal.cheapest_total)
                               / lastC.total_cost * 100)) }
      | _, _ =>
        { vs_cheapest_single_vendor := 0
          vs_most_expensive_vendor := 0
          percentage_saved := some 0 }
    .ok {
      optimal_deal := optimalDeal
      vendor_comparisons := comps
      savings_analysis := savings }

/-! ### Specification-side notions

The definitions below state, independently of the scanning code, what the
spec means by "the minimum price offered for an item across all vendors" and
"the first vendor whose price equals that minimum". -/

/-- The prices at which the vendors of the list offer `item`, in vendor-list
order; a vendor absent from this list does not offer the item. -/
def offeredPrices (vendors : List Vendor) (item : String) : List ℚ :=
  vendors.filterMap (fun v => priceOf v item)

/-- The minimum of a list of rationals, `none` on the empty list. -/
def listMin : List ℚ → Option ℚ
  | [] => none
  | q :: qs => some (match listMin qs with | none => q | some m => min q m)

/-- A monetary value that is an exact multiple of a hundredth, i.e. already
rounded to 2 decimal places. -/
def isRounded2 (q : ℚ) : Prop := round2 q = q

/-- The first vendor offering `item` at the minimum offered price, with that
price; `none` when no vendor offers the item.  This is the spec's "first
vendor (in vendor-list order) whose price equals the minimum", phrased as a
right fold. -/
def firstMin (item : String) : List Vendor → Option (String × ℚ)
  | [] => none
  | v :: vs =>
    match priceOf v item, firstMin item vs with
    | none, r => r
    | some p, none => some (v.name, p)
    | some p, some (n, q) => if p ≤ q then some (v.name, p) else some (n, q)

/-- The vendor scan with the structural validation stripped: on an all-valid
vendor list it computes the same running best as `scanVendors`. -/
def scanPure (item : String) :
    List Vendor → Option String × Option ℚ → Option String × Option ℚ
  | [], best => best
  | v :: vs, best =>
    match priceOf v item, best.2 with
    | some p, none => scanPure item vs (some v.name, some p)
    | some p, some bp =>
      if p < bp then scanPure item vs (some v.name, some p)
      else scanPure item vs best
    | none, _ => scanPure item vs best

/-! ### Concrete test fixtures

Small closed inputs used to instantiate the theorems below on concrete
data. -/

/-- A structurally valid vendor offering items "a" and "b". -/
def vendorA : Vendor := ⟨"A", some 5, some [("a", 2), ("b", 10)]⟩

/-- A structurally valid vendor offering "a" (tying vendorA) and "b" cheaper. -/
def vendorB : Vendor := ⟨"B", some 3, some [("a", 2), ("b", 4)]⟩

/-- A structurally valid vendor offering only item "a". -/
def vendorG : Vendor := ⟨"G", some 1, some [("a", 2)]⟩

/-- A structurally invalid vendor: its name is empty (falsy in JS). -/
def vendorBad : Vendor := ⟨"", some 0, some []⟩

/-- A vendor whose only item and shipping are priced zero. -/
def vendorZero : Vendor := ⟨"Z", some 0, some [("a", 0)]⟩

/-- A vendor whose shipping fee has more than 2 decimal places. -/
def vendorEighth : Vendor := ⟨"E", some (1/8), some [("x", 1)]⟩

/-- A two-item cart for the concrete scenarios. -/
def cartW : List String := ["a", "b"]

/-- The vendor list for the concrete scenarios. -/
def vendorsW : List Vendor := [vendorA, vendorB]

/-- The best deal on `cartW`/`vendorsW`: "a" from A (first at the tied
minimum 2), "b" from B (strict minimum 4); items 6, shipping 5 + 3 = 8. -/
def dealW : BestDealResult :=
  ⟨14, [("a", "A"), ("b", "B")], 6, 8, ["A", "B"], 2⟩

/-- The single-vendor comparison entry of vendorB on `cartW`. -/
def compB : VendorComparison := ⟨"B", 6, 3, 9⟩

/-- The single-vendor comparison entry of vendorA on `cartW`. -/
def compA : VendorComparison := ⟨"A", 12, 5, 17⟩

/-- The full analysis of `cartW`/`vendorsW`: comparisons sorted ascending,
savings −5 vs the cheapest single vendor, 3 vs the most expensive,
3/17 · 100 rounded to 17.65 percent. -/
def analysisW : Analysis :=
  ⟨dealW, [compB, compA], ⟨-5, 3, some (353/20)⟩⟩

/-- A cart repeating the same item name twice. -/
def cartDup : List String := ["a", "a"]

/-- The best deal on `cartDup`/`vendorsW`: one selection entry for "a", but
the price 2 counted once per cart position. -/
def dealDup : BestDealResult := ⟨9, [("a", "A")], 4, 5, ["A"], 1⟩

/-! ### Elementary lemmas about rounding -/

theorem round2_intCast_div_hundred (m : ℤ) :
    round2 ((m : ℚ) / 100) = (m : ℚ) / 100 := by
  unfold round2
  rw [div_mul_cancel₀ _ (by norm_num : (100 : ℚ) ≠ 0), Int.floor_int_add]
  norm_num

theorem isRounded2_round2 (q : ℚ) : isRounded2 (round2 q) := by
  unfold isRounded2 round2
  exact round2_intCast_div_hundred _

theorem round2_zero : round2 0 = 0 := by
  unfold round2
  norm_num

theorem isRounded2_zero : isRounded2 0 := by
  unfold isRounded2
  exact round2_zero

/-! ### Lemmas about `listMin` -/

theorem listMin_eq_none_iff (l : List ℚ) : listMin l = none ↔ l = [] := by
  cases l <;> simp [listMin]

theorem listMin_spec (l : List ℚ) (m : ℚ) (h : listMin l = some m) :
    m ∈ l ∧ ∀ x ∈ l, m ≤ x := by
  induction l generalizing m with
  | nil => simp [listMin] at h
  | cons q qs ih =>
    cases hqs : listMin qs with
    | none =>
      rw [listMin_eq_none_iff] at hqs
      subst hqs
      simp [listMin] at h
      simp [h]
    | some r =>
      simp [listMin, hqs] at h
      obtain ⟨hr_mem, hr_le⟩ := ih r hqs
      rcases le_total q r with hqr | hrq
      · rw [min_eq_left hqr] at h
        subst h
        refine ⟨List.mem_cons_self q qs, ?_⟩
        intro x hx
        rcases List.mem_cons.1 hx with hx | hx
        · exact le_of_eq hx.symm
        · exact le_trans hqr (hr_le x hx)
      · rw [min_eq_right hrq] at h
        subst h
        refine ⟨List.mem_cons_of_mem q hr_mem, ?_⟩
        intro x hx
        rcases List.mem_cons.1 hx with hx | hx
        · exact hx ▸ hrq
        · exact hr_le x hx

theorem listMin_isSome_of_ne_nil (l : List ℚ) (h : l ≠ []) :
    ∃ m, listMin l = some m := by
  cases l with
  | nil => exact absurd rfl h
  | cons q qs => exact ⟨_, rfl⟩

/-! ### Lemmas about the first vendor attaining the minimum price

The lemmas below establish the spec reading of `firstMin` (`firstMin_find?`,
`firstMin_listMin`) and its agreement with the embedded scanning loop
(`scanPure_none`). -/

theorem firstMin_eq_none_iff (item : String) (vs : List Vendor) :
    firstMin item vs = none ↔ ∀ v ∈ vs, priceOf v item = none := by
  induction vs with
  | nil => simp [firstMin]
  | cons v vs ih =>
    cases hp : priceOf v item with
    | none =>
      simp only [firstMin, hp]
      rw [ih]
      constructor
      · intro h w hw
        rcases List.mem_cons.1 hw with hw | hw
        · exact hw ▸ hp
        · exact h w hw
      · intro h w hw
        exact h w (List.mem_cons_of_mem v hw)
    | some p =>
      constructor
      · intro h
        exfalso
        cases hf : firstMin item vs with
        | none => simp [firstMin, hp, hf] at h
        | some nq =>
          obtain ⟨n, q⟩ := nq
          by_cases hpq : p ≤ q <;> simp [firstMin, hp, hf, hpq] at h
      · intro h
        have := h v (List.mem_cons_self v vs)
        rw [hp] at this
        exact absurd this (by simp)

theorem firstMin_price_least (item : String) (vs : List Vendor) (n : String) (q : ℚ)
    (h : firstMin item vs = some (n, q)) :
    q ∈ offeredPrices vs item ∧ ∀ p ∈ offeredPrices vs item, q ≤ p := by
  induction vs generalizing n q with
  | nil => simp [firstMin] at h
  | cons v vs ih =>
    cases hp : priceOf v item with
    | none =>
      simp only [firstMin, hp] at h
      obtain ⟨hmem, hle⟩ := ih n q h
      constructor
      · simpa [offeredPrices, List.filterMap_cons, hp] using hmem
      · intro p hpmem
        rw [offeredPrices, List.filterMap_cons, hp] at hpmem
        exact hle p hpmem
    | some p =>
      have hoff : offeredPrices (v :: vs) item = p :: offeredPrices vs item := by
        simp [offeredPrices, List.filterMap_cons, hp]
      cases hf : firstMin item vs with
      | none =>
        simp only [firstMin, hp, hf] at h
        obtain ⟨rfl, rfl⟩ := Prod.mk.injEq .. ▸ (Option.some.inj h)
        have hnil : offeredPrices vs item = [] := by
          rw [firstMin_eq_none_iff] at hf
          simp only [offeredPrices, List.filterMap_eq_nil_iff]
          intro w hw
          simp [hf w hw]
        rw [hoff, hnil]
        refine ⟨List.mem_singleton_self _, ?_⟩
        intro x hx
        rw [List.mem_singleton] at hx
        exact le_of_eq hx.symm
      | some nq =>
        obtain ⟨n', q'⟩ := nq
        obtain ⟨hmem', hle'⟩ := ih n' q' hf
        by_cases hpq : p ≤ q'
        · simp only [firstMin, hp, hf, if_pos hpq] at h
          obtain ⟨rfl, rfl⟩ := Prod.mk.injEq .. ▸ (Option.some.inj h)
          rw [hoff]
          refine ⟨List.mem_cons_self _ _, ?_⟩
          intro x hx
          rcases List.mem_cons.1 hx with hx | hx
          · exact le_of_eq hx.symm
          · exact le_trans hpq (hle' x hx)
        · simp only [firstMin, hp, hf, if_neg hpq] at h
          obtain ⟨rfl, rfl⟩ := Prod.mk.injEq .. ▸ (Option.some.inj h)
          rw [hoff]
          refine ⟨List.mem_cons_of_mem _ hmem', ?_⟩
          intro x hx
          rcases List.mem_cons.1 hx with hx | hx
          · exact hx ▸ le_of_not_le hpq
          · exact hle' x hx

theorem firstMin_listMin (item : String) (vs : List Vendor) (n : String) (q : ℚ)
    (h : firstMin item vs = some (n, q)) :
    listMin (offeredPrices vs item) = some q := by
  obtain ⟨hmem, hle⟩ := firstMin_price_least item vs n q h
  obtain ⟨m, hm⟩ := listMin_isSome_of_ne_nil _ (List.ne_nil_of_mem hmem)
  obtain ⟨hmmem, hmle⟩ := listMin_spec _ m hm
  rw [hm]
  exact congrArg some (le_antisymm (hmle q hmem) (hle m hmmem))

theorem firstMin_find? (item : String) (vs : List Vendor) (n : String) (q : ℚ)
    (h : firstMin item vs = some (n, q)) :
    ∃ w, vs.find? (fun v => decide (priceOf v item = some q)) = some w ∧
      w.name = n ∧ priceOf w item = some q := by
  induction vs generalizing n q with
  | nil => simp [firstMin] at h
  | cons v vs ih =>
    cases hp : priceOf v item with
    | none =>
      simp only [firstMin, hp] at h
      obtain ⟨w, hw, hwn, hwp⟩ := ih n q h
      refine ⟨w, ?_, hwn, hwp⟩
      rw [List.find?_cons_of_neg, hw]
      simp [hp]
    | some p =>
      cases hf : firstMin item vs with
      | none =>
        simp only [firstMin, hp, hf] at h
        obtain ⟨rfl, rfl⟩ := Prod.mk.injEq .. ▸ (Option.some.inj h)
        exact ⟨v, by rw [List.find?_cons_of_pos]; simp [hp], rfl, hp⟩
      | some nq =>
        obtain ⟨n', q'⟩ := nq
        by_cases hpq : p ≤ q'
        · simp only [firstMin, hp, hf, if_pos hpq] at h
          obtain ⟨rfl, rfl⟩ := Prod.mk.injEq .. ▸ (Option.some.inj h)
          exact ⟨v, by rw [List.find?_cons_of_pos]; simp [hp], rfl, hp⟩
        · simp only [firstMin, hp, hf, if_neg hpq] at h
          obtain ⟨rfl, rfl⟩ := Prod.mk.injEq .. ▸ (Option.some.inj h)
          obtain ⟨w, hw, hwn, hwp⟩ := ih n' q' hf
          refine ⟨w, ?_, hwn, hwp⟩
          rw [List.find?_cons_of_neg, hw]
          have hlt : q' < p := lt_of_not_le hpq
          simp only [hp, decide_eq_true_eq]
          intro hc
          exact absurd (Option.some.inj hc) (ne_of_gt hlt)

theorem firstMin_mem (item : String) (vs : List Vendor) (n : String) (q : ℚ)
    (h : firstMin item vs = some (n, q)) :
    ∃ w ∈ vs, w.name = n ∧ priceOf w item = some q := by
  obtain ⟨w, hw, hwn, hwp⟩ := firstMin_find? item vs n q h
  exact ⟨w, List.mem_of_find?_eq_some hw, hwn, hwp⟩

/-! ### Lemmas about the vendor scan -/

theorem scanVendors_eq_pure (item : String) (vs : List Vendor)
    (hval : ∀ v ∈ vs, vendorValid v = true) :
    ∀ st, scanVendors item vs st = .ok (scanPure item vs st) := by
  induction vs with
  | nil => intro st; rfl
  | cons v vs ih =>
    intro st
    have hv : vendorValid v = true := hval v (List.mem_cons_self v vs)
    have htail : ∀ w ∈ vs, vendorValid w = true := fun w hw =>
      hval w (List.mem_cons_of_mem v hw)
    simp only [scanVendors, scanPure, hv, if_true]
    cases hp : priceOf v item with
    | none => exact ih htail st
    | some p =>
      cases hb : st.2 with
      | none => exact ih htail _
      | some bp =>
        dsimp only
        by_cases hlt : p < bp
        · rw [if_pos hlt, if_pos hlt]
          exact ih htail _
        · rw [if_neg hlt, if_neg hlt]
          exact ih htail _

theorem scanVendors_ok_valid (item : String) (vs : List Vendor)
    (st out : Option String × Option ℚ)
    (h : scanVendors item vs st = .ok out) :
    ∀ v ∈ vs, vendorValid v = true := by
  induction vs generalizing st with
  | nil => intro v hv; cases hv
  | cons v vs ih =>
    intro w hw
    by_cases hv : vendorValid v = true
    · rcases List.mem_cons.1 hw with hw | hw
      · exact hw ▸ hv
      · simp only [scanVendors, hv, if_true] at h
        cases hp : priceOf v item with
        | none =>
          rw [hp] at h
          exact ih _ h w hw
        | some p =>
          rw [hp] at h
          cases hb : st.2 with
          | none => rw [hb] at h; exact ih _ h w hw
          | some bp =>
            rw [hb] at h
            dsimp only at h
            by_cases hlt : p < bp
            · rw [if_pos hlt] at h; exact ih _ h w hw
            · rw [if_neg hlt] at h; exact ih _ h w hw
    · rw [Bool.not_eq_true] at hv
      simp [scanVendors, hv] at h

theorem scanVendors_invalid (item : String) (vs : List Vendor)
    (h : ∃ v ∈ vs, vendorValid v = false) :
    ∀ st, scanVendors item vs st = .error .invalidVendor := by
  induction vs with
  | nil => obtain ⟨v, hv, _⟩ := h; cases hv
  | cons v vs ih =>
    intro st
    obtain ⟨w, hw, hwf⟩ := h
    rcases List.mem_cons.1 hw with hw | hw
    · subst hw
      simp [scanVendors, hwf]
    · by_cases hv : vendorValid v = true
      · have ihs := ih ⟨w, hw, hwf⟩
        simp only [scanVendors, hv, if_true]
        cases hp : priceOf v item with
        | none => exact ihs _
        | some p =>
          cases hb : st.2 with
          | none => exact ihs _
          | some bp =>
            dsimp only
            by_cases hlt : p < bp
            · rw [if_pos hlt]; exact ihs _
            · rw [if_neg hlt]; exact ihs _
      · rw [Bool.not_eq_true] at hv
        simp [scanVendors, hv]

theorem scanPure_acc (item : String) (vs : List Vendor) :
    ∀ (a : String) (pa : ℚ),
      scanPure item vs (some a, some pa) =
        match firstMin item vs with
        | none => (some a, some pa)
        | some (n, q) => if q < pa then (some n, some q) else (some a, some pa) := by
  induction vs with
  | nil => intro a pa; rfl
  | cons v vs ih =>
    intro a pa
    cases hp : priceOf v item with
    | none => simp only [scanPure, hp, firstMin]; exact ih a pa
    | some p =>
      simp only [scanPure, firstMin, hp]
      by_cases hlt : p < pa
      · rw [if_pos hlt, ih v.name p]
        cases hf : firstMin item vs with
        | none =>
          dsimp only
          rw [if_pos hlt]
        | some nq =>
          obtain ⟨n, q⟩ := nq
          dsimp only
          by_cases hpq : p ≤ q
          · rw [if_pos hpq]
            dsimp only
            rw [if_neg (not_lt.2 hpq), if_pos hlt]
          · have hq : q < p := lt_of_not_le hpq
            rw [if_neg hpq]
            dsimp only
            rw [if_pos hq, if_pos (lt_trans hq hlt)]
      · rw [if_neg hlt, ih a pa]
        cases hf : firstMin item vs with
        | none =>
          dsimp only
          rw [if_neg hlt]
        | some nq =>
          obtain ⟨n, q⟩ := nq
          dsimp only
          by_cases hpq : p ≤ q
          · rw [if_pos hpq]
            dsimp only
            have hnq : ¬ q < pa := fun hc => hlt (lt_of_le_of_lt hpq hc)
            rw [if_neg hnq, if_neg hlt]
          · rw [if_neg hpq]

theorem scanPure_none (item : String) (vs : List Vendor) :
    scanPure item vs (none, none) =
      match firstMin item vs with
      | none => (none, none)
      | some (n, q) => (some n, some q) := by
  induction vs with
  | nil => rfl
  | cons v vs ih =>
    cases hp : priceOf v item with
    | none => simp only [scanPure, hp, firstMin]; exact ih
    | some p =>
      simp only [scanPure, firstMin, hp]
      rw [scanPure_acc item vs v.name p]
      cases hf : firstMin item vs with
      | none => rfl
      | some nq =>
        obtain ⟨n, q⟩ := nq
        dsimp only
        by_cases hq : q < p
        · rw [if_pos hq, if_neg (not_le.2 hq)]
        · rw [if_neg hq, if_pos (le_of_not_lt hq)]

/-! ### The selection object and the used-vendor set -/

theorem upsert_invariant (P : String → String → Prop)
    (sel : List (String × String)) (k v : String)
    (hsel : ∀ p ∈ sel, P p.1 p.2) (hkv : P k v) :
    ∀ p ∈ upsert sel k v, P p.1 p.2 := by
  induction sel with
  | nil =>
    intro p hp
    rw [upsert, List.mem_singleton] at hp
    exact hp ▸ hkv
  | cons a rest ih =>
    obtain ⟨k', v'⟩ := a
    intro p hp
    rw [upsert] at hp
    by_cases hk : k' = k
    · rw [if_pos hk] at hp
      rcases List.mem_cons.1 hp with hp | hp
      · subst hp; exact hk ▸ hkv
      · exact hsel p (List.mem_cons_of_mem _ hp)
    · rw [if_neg hk] at hp
      rcases List.mem_cons.1 hp with hp | hp
      · exact hp ▸ hsel _ (List.mem_cons_self _ _)
      · exact ih (fun q hq => hsel q (List.mem_cons_of_mem _ hq)) p hp

theorem upsert_keys (sel : List (String × String)) (k v : String) :
    (upsert sel k v).map Prod.fst =
      if k ∈ sel.map Prod.fst then sel.map Prod.fst
      else sel.map Prod.fst ++ [k] := by
  induction sel with
  | nil => simp [upsert]
  | cons a rest ih =>
    obtain ⟨k', v'⟩ := a
    rw [upsert]
    by_cases hk : k' = k
    · subst hk
      rw [if_pos rfl]
      simp
    · rw [if_neg hk]
      by_cases hmem : k ∈ rest.map Prod.fst
      · simp only [List.map_cons, ih, if_pos hmem]
        rw [if_pos]
        exact List.mem_cons_of_mem _ hmem
      · simp only [List.map_cons, ih, if_neg hmem]
        rw [if_neg]
        · simp
        · intro hc
          rcases List.mem_cons.1 hc with hc | hc
          · exact hk hc.symm
          · exact hmem hc

theorem upsert_keys_mem (sel : List (String × String)) (k v k' : String) :
    k' ∈ (upsert sel k v).map Prod.fst ↔ k' ∈ sel.map Prod.fst ∨ k' = k := by
  rw [upsert_keys]
  by_cases hmem : k ∈ sel.map Prod.fst
  · rw [if_pos hmem]
    constructor
    · exact Or.inl
    · rintro (h | rfl)
      · exact h
      · exact hmem
  · rw [if_neg hmem]
    simp

theorem upsert_keys_nodup (sel : List (String × String)) (k v : String)
    (h : (sel.map Prod.fst).Nodup) : ((upsert sel k v).map Prod.fst).Nodup := by
  rw [upsert_keys]
  by_cases hmem : k ∈ sel.map Prod.fst
  · rwa [if_pos hmem]
  · rw [if_neg hmem]
    simp [List.nodup_append, h, hmem]

theorem addUsed_mem (used : List String) (m n : String) :
    n ∈ addUsed used m ↔ n ∈ used ∨ n = m := by
  unfold addUsed
  split_ifs with h
  · rw [List.contains_eq_any_beq] at h
    constructor
    · exact Or.inl
    · rintro (hn | rfl)
      · exact hn
      · simpa [List.any_eq_true] using h
  · simp

theorem lookup_eq_of_forall (sel : List (String × String)) (f : String → String)
    (hinv : ∀ p ∈ sel, p.2 = f p.1) (k : String) (hk : k ∈ sel.map Prod.fst) :
    sel.lookup k = some (f k) := by
  induction sel with
  | nil => cases hk
  | cons a rest ih =>
    obtain ⟨k', v'⟩ := a
    by_cases h : k = k'
    · subst h
      have := hinv (k, v') (List.mem_cons_self _ _)
      simp only at this
      simp [List.lookup, this]
    · have hk' : k ∈ rest.map Prod.fst := by
        rcases List.mem_cons.1 hk with hc | hc
        · exact absurd hc h
        · exact hc
      have hbeq : (k == k') = false := by simpa using h
      rw [List.lookup, hbeq]
      exact ih (fun q hq => hinv q (List.mem_cons_of_mem _ hq)) hk'

theorem countP_keys_zero (sel : List (String × String)) (k : String)
    (h : k ∉ sel.map Prod.fst) :
    sel.countP (fun p => p.1 == k) = 0 := by
  rw [List.countP_eq_zero]
  intro p hp hc
  rw [beq_iff_eq] at hc
  exact h (hc ▸ List.mem_map_of_mem Prod.fst hp)

theorem countP_keys_nodup (sel : List (String × String)) (k : String)
    (hnd : (sel.map Prod.fst).Nodup) (hk : k ∈ sel.map Prod.fst) :
    sel.countP (fun p => p.1 == k) = 1 := by
  induction sel with
  | nil => cases hk
  | cons a rest ih =>
    obtain ⟨k', v'⟩ := a
    rw [List.map_cons, List.nodup_cons] at hnd
    rw [List.countP_cons]
    by_cases h : k' = k
    · subst h
      rw [countP_keys_zero rest k' hnd.1]
      simp
    · have hk' : k ∈ rest.map Prod.fst := by
        rcases List.mem_cons.1 hk with hc | hc
        · exact absurd hc.symm h
        · exact hc
      rw [ih hnd.2 hk']
      simp [h]

/-! ### The item loop -/

theorem bestDealLoop_spec (vendors : List Vendor)
    (hval : ∀ v ∈ vendors, vendorValid v = true) :
    ∀ (items : List String) (sel : List (String × String)) (used : List String) (cost : ℚ),
    (∀ i ∈ items, ∃ nq, firstMin i vendors = some nq) →
    (∀ p ∈ sel, ∃ q, firstMin p.1 vendors = some (p.2, q)) →
    ∃ sel' used' cost',
      bestDealLoop vendors items sel used cost = .ok (sel', used', cost') ∧
      (∀ p ∈ sel', ∃ q, firstMin p.1 vendors = some (p.2, q)) ∧
      (∀ k, k ∈ sel'.map Prod.fst ↔ k ∈ sel.map Prod.fst ∨ k ∈ items) ∧
      ((sel.map Prod.fst).Nodup → (sel'.map Prod.fst).Nodup) ∧
      (∀ n, n ∈ used' ↔ n ∈ used ∨ ∃ i ∈ items, ∃ q, firstMin i vendors = some (n, q)) ∧
      cost' = cost + (items.map (fun i => ((firstMin i vendors).map Prod.snd).getD 0)).sum := by
  intro items
  induction items with
  | nil =>
    intro sel used cost _ hsel
    exact ⟨sel, used, cost, rfl, hsel, by simp, id, by simp, by simp⟩
  | cons i rest ih =>
    intro sel used cost hitems hsel
    obtain ⟨nq, hfm⟩ := hitems i (List.mem_cons_self i rest)
    obtain ⟨n, q⟩ := nq
    have hscan : scanVendors i vendors (none, none) = .ok (some n, some q) := by
      rw [scanVendors_eq_pure i vendors hval, scanPure_none, hfm]
    obtain ⟨w, hwmem, hwname, hwprice⟩ := firstMin_mem i vendors n q hfm
    have hn : ¬ n = "" := by
      have hv := hval w hwmem
      rw [vendorValid] at hv
      simp only [Bool.and_eq_true, bne_iff_ne] at hv
      exact hwname ▸ hv.1.1
    obtain ⟨sel', used', cost', hloop, hinv', hkeys', hnd', hused', hcost'⟩ :=
      ih (upsert sel i n) (addUsed used n) (cost + q)
        (fun j hj => hitems j (List.mem_cons_of_mem i hj))
        (upsert_invariant (fun k v => ∃ q, firstMin k vendors = some (v, q))
          sel i n hsel ⟨q, hfm⟩)
    refine ⟨sel', used', cost', ?_, hinv', ?_, ?_, ?_, ?_⟩
    · rw [bestDealLoop, hscan]
      show (if n = "" then Except.error (CalcError.itemUnavailable i)
            else bestDealLoop vendors rest (upsert sel i n) (addUsed used n) (cost + q))
          = Except.ok (sel', used', cost')
      rw [if_neg hn]
      exact hloop
    · intro k
      rw [hkeys' k, upsert_keys_mem, List.mem_cons]
      tauto
    · exact fun h => hnd' (upsert_keys_nodup sel i n h)
    · intro m
      rw [hused' m, addUsed_mem]
      constructor
      · rintro ((hm | rfl) | ⟨j, hj, q', hq'⟩)
        · exact Or.inl hm
        · exact Or.inr ⟨i, List.mem_cons_self i rest, q, hfm⟩
        · exact Or.inr ⟨j, List.mem_cons_of_mem i hj, q', hq'⟩
      · rintro (hm | ⟨j, hj, q', hq'⟩)
        · exact Or.inl (Or.inl hm)
        · rcases List.mem_cons.1 hj with rfl | hj
          · rw [hfm] at hq'
            obtain ⟨h1, -⟩ := Prod.mk.injEq .. ▸ (Option.some.inj hq')
            exact Or.inl (Or.inr h1.symm)
          · exact Or.inr ⟨j, hj, q', hq'⟩
    · rw [hcost', List.map_cons, List.sum_cons, hfm]
      show cost + q + _ = cost + (q + _)
      ring

/-- Successful characterisation of `calculateBestDeal` on a non-empty cart
and a non-empty, all-valid vendor list in which every cart item is offered. -/
theorem calculateBestDeal_ok_spec (cart : List String) (vendors : List Vendor)
    (h1 : cart ≠ []) (h2 : vendors ≠ [])
    (hval : ∀ v ∈ vendors, vendorValid v = true)
    (hoff : ∀ i ∈ cart, ∃ nq, firstMin i vendors = some nq) :
    ∃ r, calculateBestDeal cart vendors = .ok r ∧
      (∀ p ∈ r.selection, ∃ q, firstMin p.1 vendors = some (p.2, q)) ∧
      (∀ k, k ∈ r.selection.map Prod.fst ↔ k ∈ cart) ∧
      (r.selection.map Prod.fst).Nodup ∧
      (∀ n, n ∈ r.selected_vendors ↔ ∃ i ∈ cart, ∃ q, firstMin i vendors = some (n, q)) ∧
      r.items_cost =
        round2 ((cart.map (fun i => ((firstMin i vendors).map Prod.snd).getD 0)).sum) ∧
      r.shipping_cost = round2 (shippingTotal vendors r.selected_vendors) ∧
      r.cheapest_total =
        round2 ((cart.map (fun i => ((firstMin i vendors).map Prod.snd).getD 0)).sum
                + shippingTotal vendors r.selected_vendors) := by
  have hce : cart.isEmpty = false := by
    cases cart with
    | nil => exact absurd rfl h1
    | cons a l => rfl
  have hve : vendors.isEmpty = false := by
    cases vendors with
    | nil => exact absurd rfl h2
    | cons a l => rfl
  obtain ⟨sel', used', cost', hloop, hinv', hkeys', hnd', hused', hcost'⟩ :=
    bestDealLoop_spec vendors hval cart [] [] 0 hoff (by intro p hp; cases hp)
  refine ⟨{ cheapest_total := round2 (cost' + shippingTotal vendors used')
            selection := sel'
            items_cost := round2 cost'
            shipping_cost := round2 (shippingTotal vendors used')
            selected_vendors := used'
            total_vendors_used := used'.length },
          ?_, hinv', ?_, hnd' List.nodup_nil, ?_, ?_, rfl, ?_⟩
  · rw [calculateBestDeal, hce, hve]
    rw [if_neg Bool.false_ne_true, if_neg Bool.false_ne_true, hloop]
  · intro k
    rw [hkeys' k]
    simp
  · intro n
    rw [hused' n]
    simp
  · dsimp only
    rw [hcost', zero_add]
  · dsimp only
    rw [hcost', zero_add]

/-! ### Inversion: what a successful or failed run implies about the input -/

theorem bestDealLoop_cons_ok_valid (vendors : List Vendor) (i : String)
    (items : List String) (sel : List (String × String)) (used : List String)
    (cost : ℚ) (out : List (String × String) × List String × ℚ)
    (h : bestDealLoop vendors (i :: items) sel used cost = .ok out) :
    ∀ v ∈ vendors, vendorValid v = true := by
  rw [bestDealLoop] at h
  cases hs : scanVendors i vendors (none, none) with
  | error e => rw [hs] at h; cases h
  | ok st => exact scanVendors_ok_valid i vendors _ st hs

theorem bestDealLoop_ok_offered (vendors : List Vendor)
    (hval : ∀ v ∈ vendors, vendorValid v = true) :
    ∀ (items : List String) (sel : List (String × String)) (used : List String)
      (cost : ℚ) (out : List (String × String) × List String × ℚ),
      bestDealLoop vendors items sel used cost = .ok out →
      ∀ i ∈ items, ∃ nq, firstMin i vendors = some nq := by
  intro items
  induction items with
  | nil => intro sel used cost out h i hi; cases hi
  | cons i rest ih =>
    intro sel used cost out h j hj
    rw [bestDealLoop, scanVendors_eq_pure i vendors hval, scanPure_none] at h
    cases hf : firstMin i vendors with
    | none => rw [hf] at h; cases h
    | some nq =>
      obtain ⟨n, q⟩ := nq
      rw [hf] at h
      dsimp only at h
      by_cases hn : n = ""
      · rw [if_pos hn] at h; cases h
      · rw [if_neg hn] at h
        rcases List.mem_cons.1 hj with rfl | hj
        · exact ⟨(n, q), hf⟩
        · exact ih _ _ _ _ h j hj

theorem bestDealLoop_error_unavailable (vendors : List Vendor)
    (hval : ∀ v ∈ vendors, vendorValid v = true) :
    ∀ (items : List String) (sel : List (String × String)) (used : List String)
      (cost : ℚ) (e : CalcError),
      bestDealLoop vendors items sel used cost = .error e →
      ∃ i, e = .itemUnavailable i ∧ i ∈ items ∧ firstMin i vendors = none := by
  intro items
  induction items with
  | nil => intro sel used cost e h; cases h
  | cons i rest ih =>
    intro sel used cost e h
    rw [bestDealLoop, scanVendors_eq_pure i vendors hval, scanPure_none] at h
    cases hf : firstMin i vendors with
    | none =>
      rw [hf] at h
      dsimp only at h
      exact ⟨i, (Except.error.inj h).symm, List.mem_cons_self i rest, hf⟩
    | some nq =>
      obtain ⟨n, q⟩ := nq
      rw [hf] at h
      dsimp only at h
      obtain ⟨w, hwmem, hwname, -⟩ := firstMin_mem i vendors n q hf
      have hn : ¬ n = "" := by
        have hv := hval w hwmem
        rw [vendorValid] at hv
        simp only [Bool.and_eq_true, bne_iff_ne] at hv
        exact hwname ▸ hv.1.1
      rw [if_neg hn] at h
      obtain ⟨j, hje, hjmem, hjnone⟩ := ih _ _ _ _ h
      exact ⟨j, hje, List.mem_cons_of_mem i hjmem, hjnone⟩

theorem bestDealLoop_error_of_unoffered (vendors : List Vendor)
    (hval : ∀ v ∈ vendors, vendorValid v = true) :
    ∀ (items : List String) (sel : List (String × String)) (used : List String)
      (cost : ℚ),
      (∃ i ∈ items, firstMin i vendors = none) →
      ∃ j, bestDealLoop vendors items sel used cost = .error (.itemUnavailable j) ∧
        j ∈ items ∧ firstMin j vendors = none := by
  intro items
  induction items with
  | nil =>
    intro sel used cost h
    obtain ⟨i, hi, -⟩ := h
    cases hi
  | cons i rest ih =>
    intro sel used cost h
    rw [bestDealLoop, scanVendors_eq_pure i vendors hval, scanPure_none]
    cases hf : firstMin i vendors with
    | none =>
      exact ⟨i, rfl, List.mem_cons_self i rest, hf⟩
    | some nq =>
      obtain ⟨n, q⟩ := nq
      dsimp only
      obtain ⟨w, hwmem, hwname, -⟩ := firstMin_mem i vendors n q hf
      have hn : ¬ n = "" := by
        have hv := hval w hwmem
        rw [vendorValid] at hv
        simp only [Bool.and_eq_true, bne_iff_ne] at hv
        exact hwname ▸ hv.1.1
      rw [if_neg hn]
      obtain ⟨i0, hi0, hi0none⟩ := h
      rcases List.mem_cons.1 hi0 with rfl | hi0
      · rw [hf] at hi0none; cases hi0none
      · obtain ⟨j, hj, hjmem, hjnone⟩ := ih _ _ _ ⟨i0, hi0, hi0none⟩
        exact ⟨j, hj, List.mem_cons_of_mem i hjmem, hjnone⟩

theorem calculateBestDeal_ok_inversion (cart : List String) (vendors : List Vendor)
    (r : BestDealResult) (h : calculateBestDeal cart vendors = .ok r) :
    cart ≠ [] ∧ vendors ≠ [] ∧ (∀ v ∈ vendors, vendorValid v = true) ∧
      (∀ i ∈ cart, ∃ nq, firstMin i vendors = some nq) := by
  have h1 : cart ≠ [] := by
    rintro rfl
    rw [calculateBestDeal] at h
    cases h
  have h2 : vendors ≠ [] := by
    rintro rfl
    rw [calculateBestDeal] at h
    rcases cart with - | ⟨a, l⟩
    · cases h
    · cases h
  have hce : cart.isEmpty = false := by
    cases cart with
    | nil => exact absurd rfl h1
    | cons a l => rfl
  have hve : vendors.isEmpty = false := by
    cases vendors with
    | nil => exact absurd rfl h2
    | cons a l => rfl
  rw [calculateBestDeal, hce, hve, if_neg Bool.false_ne_true,
    if_neg Bool.false_ne_true] at h
  have hloopok : ∃ out, bestDealLoop vendors cart [] [] 0 = .ok out := by
    cases hb : bestDealLoop vendors cart [] [] 0 with
    | error e => rw [hb] at h; cases h
    | ok out => exact ⟨out, rfl⟩
  obtain ⟨out, hout⟩ := hloopok
  have hval : ∀ v ∈ vendors, vendorValid v = true := by
    cases cart with
    | nil => exact absurd rfl h1
    | cons a l => exact bestDealLoop_cons_ok_valid vendors a l [] [] 0 out hout
  exact ⟨h1, h2, hval, bestDealLoop_ok_offered vendors hval cart [] [] 0 out hout⟩

/-! ### The shipping sum -/

theorem foldl_shipping (used : List String) :
    ∀ (vendors : List Vendor) (acc : ℚ),
      vendors.foldl (fun a v => if used.contains v.name then a + shippingOf v else a) acc =
        acc + ((vendors.filter (fun v => used.contains v.name)).map shippingOf).sum := by
  intro vendors
  induction vendors with
  | nil => intro acc; simp
  | cons v vs ih =>
    intro acc
    rw [List.foldl_cons]
    cases hc : used.contains v.name with
    | true =>
      rw [if_pos rfl, ih, List.filter_cons]
      simp only [hc, if_true]
      rw [List.map_cons, List.sum_cons]
      ring
    | false =>
      rw [if_neg Bool.false_ne_true, ih, List.filter_cons]
      simp only [hc, Bool.false_eq_true, if_false]

theorem shippingTotal_eq_filter (vendors : List Vendor) (used : List String) :
    shippingTotal vendors used =
      ((vendors.filter (fun v => used.contains v.name)).map shippingOf).sum := by
  rw [shippingTotal, foldl_shipping, zero_add]

theorem firstMin_isSome_of_offered (item : String) (vs : List Vendor)
    (h : ∃ v ∈ vs, (priceOf v item).isSome) :
    ∃ nq, firstMin item vs = some nq := by
  cases hf : firstMin item vs with
  | none =>
    rw [firstMin_eq_none_iff] at hf
    obtain ⟨v, hv, hp⟩ := h
    rw [hf v hv] at hp
    cases hp
  | some nq => exact ⟨nq, rfl⟩

/-- Every successful `calculateBestDeal` result satisfies the structural
properties established by `calculateBestDeal_ok_spec`. -/
theorem calculateBestDeal_ok_props (cart : List String) (vendors : List Vendor)
    (r : BestDealResult) (hok : calculateBestDeal cart vendors = .ok r) :
    (∀ p ∈ r.selection, ∃ q, firstMin p.1 vendors = some (p.2, q)) ∧
    (∀ k, k ∈ r.selection.map Prod.fst ↔ k ∈ cart) ∧
    (r.selection.map Prod.fst).Nodup ∧
    (∀ n, n ∈ r.selected_vendors ↔ ∃ i ∈ cart, ∃ q, firstMin i vendors = some (n, q)) ∧
    r.items_cost =
      round2 ((cart.map (fun i => ((firstMin i vendors).map Prod.snd).getD 0)).sum) ∧
    r.shipping_cost = round2 (shippingTotal vendors r.selected_vendors) ∧
    r.cheapest_total =
      round2 ((cart.map (fun i => ((firstMin i vendors).map Prod.snd).getD 0)).sum
              + shippingTotal vendors r.selected_vendors) := by
  obtain ⟨h1, h2, hval, hoff⟩ := calculateBestDeal_ok_inversion cart vendors r hok
  obtain ⟨r', hok', props⟩ := calculateBestDeal_ok_spec cart vendors h1 h2 hval hoff
  rw [hok] at hok'
  obtain rfl := Except.ok.inj hok'
  exact props

/-- The used-vendor set recorded in a successful result consists of exactly
the vendor names appearing as values of the selection mapping. -/
theorem mem_selection_values_iff (cart : List String) (vendors : List Vendor)
    (r : BestDealResult) (hok : calculateBestDeal cart vendors = .ok r)
    (n : String) :
    n ∈ r.selection.map Prod.snd ↔ n ∈ r.selected_vendors := by
  obtain ⟨hinv, hkeys, -, hused, -⟩ := calculateBestDeal_ok_props cart vendors r hok
  rw [hused n]
  constructor
  · intro hn
    obtain ⟨p, hp, rfl⟩ := List.mem_map.1 hn
    obtain ⟨q, hq⟩ := hinv p hp
    exact ⟨p.1, (hkeys p.1).1 (List.mem_map_of_mem Prod.fst hp), q, hq⟩
  · rintro ⟨i, hi, q, hq⟩
    obtain ⟨p, hp, hpi⟩ := List.mem_map.1 ((hkeys i).2 hi)
    obtain ⟨q', hq'⟩ := hinv p hp
    rw [hpi, hq] at hq'
    obtain ⟨h1, -⟩ := Prod.mk.injEq .. ▸ (Option.some.inj hq')
    rw [h1]
    exact List.mem_map_of_mem Prod.snd hp

/-! ### Single-vendor costing -/

theorem itemsTotalFrom_eq_none_iff (v : Vendor) :
    ∀ (items : List String) (acc : ℚ),
      itemsTotalFrom v items acc = none ↔ ∃ i ∈ items, priceOf v i = none := by
  intro items
  induction items with
  | nil => intro acc; simp [itemsTotalFrom]
  | cons i is ih =>
    intro acc
    cases hp : priceOf v i with
    | none =>
      simp only [itemsTotalFrom, hp]
      constructor
      · intro _
        exact ⟨i, List.mem_cons_self i is, hp⟩
      · intro _
        trivial
    | some p =>
      simp only [itemsTotalFrom, hp, ih (acc + p)]
      constructor
      · rintro ⟨j, hj, hjp⟩
        exact ⟨j, List.mem_cons_of_mem i hj, hjp⟩
      · rintro ⟨j, hj, hjp⟩
        rcases List.mem_cons.1 hj with rfl | hj
        · rw [hp] at hjp; cases hjp
        · exact ⟨j, hj, hjp⟩

theorem itemsTotalFrom_eq_some (v : Vendor) :
    ∀ (items : List String) (acc : ℚ),
      (∀ i ∈ items, (priceOf v i).isSome) →
      itemsTotalFrom v items acc =
        some (acc + (items.map (fun i => (priceOf v i).getD 0)).sum) := by
  intro items
  induction items with
  | nil => intro acc _; simp [itemsTotalFrom]
  | cons i is ih =>
    intro acc hoff
    have hi := hoff i (List.mem_cons_self i is)
    obtain ⟨p, hp⟩ := Option.isSome_iff_exists.1 hi
    rw [itemsTotalFrom, hp]
    dsimp only
    rw [ih (acc + p) (fun j hj => hoff j (List.mem_cons_of_mem i hj))]
    rw [List.map_cons, List.sum_cons, hp]
    rw [Option.getD_some, add_assoc]

theorem singleVendorCost_invalid (cart : List String) (v : Vendor)
    (h : vendorValid v = false) :
    calculateSingleVendorCost cart v = none := by
  rw [calculateSingleVendorCost, h]
  rfl

theorem singleVendorCost_eq_some (cart : List String) (v : Vendor)
    (hval : vendorValid v = true) (hoff : ∀ i ∈ cart, (priceOf v i).isSome) :
    calculateSingleVendorCost cart v = some {
      vendor_name := v.name
      items_cost := round2 ((cart.map (fun i => (priceOf v i).getD 0)).sum)
      shipping_cost := shippingOf v
      total_cost := round2 ((cart.map (fun i => (priceOf v i).getD 0)).sum + shippingOf v) } := by
  rw [calculateSingleVendorCost, hval, if_pos rfl, itemsTotalFrom_eq_some v cart 0 hoff,
    zero_add]

theorem singleVendorCost_isSome_iff (cart : List String) (v : Vendor) :
    (calculateSingleVendorCost cart v).isSome ↔
      vendorValid v = true ∧ ∀ i ∈ cart, (priceOf v i).isSome := by
  cases hval : vendorValid v with
  | false =>
    rw [singleVendorCost_invalid cart v hval]
    simp
  | true =>
    by_cases hoff : ∀ i ∈ cart, (priceOf v i).isSome
    · rw [singleVendorCost_eq_some cart v hval hoff]
      constructor
      · intro _
        exact ⟨rfl, hoff⟩
      · intro _
        rfl
    · have hmiss : ∃ i ∈ cart, priceOf v i = none := by
        push_neg at hoff
        obtain ⟨i, hi, hni⟩ := hoff
        cases hpx : priceOf v i with
        | none => exact ⟨i, hi, hpx⟩
        | some p => rw [hpx] at hni; simp at hni
      rw [calculateSingleVendorCost, hval, if_pos rfl,
        (itemsTotalFrom_eq_none_iff v cart 0).2 hmiss]
      simpa using hoff

theorem singleVendorCost_some_fields (cart : List String) (v : Vendor)
    (c : VendorComparison) (h : calculateSingleVendorCost cart v = some c) :
    vendorValid v = true ∧
    ∃ t, itemsTotalFrom v cart 0 = some t ∧
      c = ⟨v.name, round2 t, shippingOf v, round2 (t + shippingOf v)⟩ := by
  cases hval : vendorValid v with
  | false => rw [singleVendorCost_invalid cart v hval] at h; cases h
  | true =>
    refine ⟨rfl, ?_⟩
    rw [calculateSingleVendorCost, hval, if_pos rfl] at h
    cases ht : itemsTotalFrom v cart 0 with
    | none => rw [ht] at h; cases h
    | some t =>
      rw [ht] at h
      dsimp only at h
      exact ⟨t, rfl, (Option.some.inj h).symm⟩

/-! ### The stable ascending sort by total cost -/

theorem insertSorted_perm (c : VendorComparison) (l : List VendorComparison) :
    List.Perm (insertSorted c l) (c :: l) := by
  induction l with
  | nil => exact List.Perm.refl _
  | cons d ds ih =>
    rw [insertSorted]
    by_cases h : c.total_cost ≤ d.total_cost
    · rw [if_pos h]
    · rw [if_neg h]
      exact (ih.cons d).trans (List.Perm.swap c d ds)

theorem sortComparisons_perm (l : List VendorComparison) :
    List.Perm (sortComparisons l) l := by
  induction l with
  | nil => exact List.Perm.refl _
  | cons c cs ih =>
    rw [sortComparisons]
    exact (insertSorted_perm c (sortComparisons cs)).trans (ih.cons c)

theorem insertSorted_pairwise (c : VendorComparison) (l : List VendorComparison)
    (h : l.Pairwise (fun a b => a.total_cost ≤ b.total_cost)) :
    (insertSorted c l).Pairwise (fun a b => a.total_cost ≤ b.total_cost) := by
  induction l with
  | nil => simp [insertSorted]
  | cons d ds ih =>
    rw [List.pairwise_cons] at h
    obtain ⟨hd, hds⟩ := h
    rw [insertSorted]
    by_cases hcd : c.total_cost ≤ d.total_cost
    · rw [if_pos hcd, List.pairwise_cons]
      refine ⟨?_, List.pairwise_cons.2 ⟨hd, hds⟩⟩
      intro e he
      rcases List.mem_cons.1 he with rfl | he
      · exact hcd
      · exact le_trans hcd (hd e he)
    · rw [if_neg hcd, List.pairwise_cons]
      refine ⟨?_, ih hds⟩
      intro e he
      have he' : e ∈ c :: ds := (insertSorted_perm c ds).mem_iff.1 he
      rcases List.mem_cons.1 he' with rfl | he'
      · exact le_of_lt (lt_of_not_le hcd)
      · exact hd e he'

theorem sortComparisons_pairwise (l : List VendorComparison) :
    (sortComparisons l).Pairwise (fun a b => a.total_cost ≤ b.total_cost) := by
  induction l with
  | nil => exact List.Pairwise.nil
  | cons c cs ih => exact insertSorted_pairwise c (sortComparisons cs) ih

theorem insertSorted_filter_pos (c : VendorComparison) (l : List VendorComparison)
    (k : ℚ) (hc : c.total_cost = k) :
    (insertSorted c l).filter (fun d => decide (d.total_cost = k)) =
      c :: l.filter (fun d => decide (d.total_cost = k)) := by
  induction l with
  | nil =>
    rw [insertSorted, List.filter_cons, if_pos (by simp [hc])]
  | cons d ds ih =>
    rw [insertSorted]
    by_cases h : c.total_cost ≤ d.total_cost
    · rw [if_pos h, List.filter_cons, if_pos (by simp [hc])]
    · have hd : ¬ d.total_cost = k := by
        intro he
        exact h (le_of_eq (hc.trans he.symm))
      rw [if_neg h, List.filter_cons, if_neg (by simp [hd]), ih]
      rw [List.filter_cons, if_neg (by simp [hd])]

theorem insertSorted_filter_ne (c : VendorComparison) (l : List VendorComparison)
    (k : ℚ) (hc : ¬ c.total_cost = k) :
    (insertSorted c l).filter (fun d => decide (d.total_cost = k)) =
      l.filter (fun d => decide (d.total_cost = k)) := by
  induction l with
  | nil =>
    rw [insertSorted, List.filter_cons, if_neg (by simp [hc])]
  | cons d ds ih =>
    rw [insertSorted]
    by_cases h : c.total_cost ≤ d.total_cost
    · rw [if_pos h, List.filter_cons, if_neg (by simp [hc])]
    · rw [if_neg h, List.filter_cons, ih]
      rw [List.filter_cons]

theorem sortComparisons_filter (l : List VendorComparison) (k : ℚ) :
    (sortComparisons l).filter (fun d => decide (d.total_cost = k)) =
      l.filter (fun d => decide (d.total_cost = k)) := by
  induction l with
  | nil => rfl
  | cons c cs ih =>
    rw [sortComparisons]
    by_cases hc : c.total_cost = k
    · rw [insertSorted_filter_pos c (sortComparisons cs) k hc, ih,
        List.filter_cons, if_pos (by simp [hc])]
    · rw [insertSorted_filter_ne c (sortComparisons cs) k hc, ih,
        List.filter_cons, if_neg (by simp [hc])]

/-! ### Claim C1 -/

/-- C1, counterexample.  The claim quantifies over vendor lists "in which
every cart item is offered by at least one structurally valid vendor" and
asserts that `calculateBestDeal` then assigns each item to the first
cheapest vendor and reports an items cost.  On the cart `["a"]` with vendors
`[vendorG, vendorBad]`, item "a" is offered by the structurally valid
`vendorG`, yet the computation throws `InvalidVendor` because of the
unrelated malformed `vendorBad` in the list, so nothing is assigned or
reported. -/
theorem invalidVendor_fatal_despite_valid_offer :
    vendorValid vendorG = true ∧
    priceOf vendorG "a" = some 2 ∧
    calculateBestDeal ["a"] [vendorG, vendorBad] = .error .invalidVendor := by
  with_unfolding_all decide

/-- C1, amended: for every non-empty cart and non-empty vendor list in which
EVERY vendor is structurally valid and every cart item is offered by at
least one vendor, `calculateBestDeal` succeeds; it assigns each cart item to
the first vendor (in vendor-list order) whose price equals the minimum price
offered for that item across all vendors, and its reported `items_cost` is
the sum, over cart positions, of those minimum prices, rounded to 2
decimals. -/
theorem bestDeal_assigns_first_minimum (cart : List String) (vendors : List Vendor)
    (h1 : cart ≠ []) (h2 : vendors ≠ [])
    (hval : ∀ v ∈ vendors, vendorValid v = true)
    (hoff : ∀ i ∈ cart, ∃ v ∈ vendors, (priceOf v i).isSome) :
    (∃ r, calculateBestDeal cart vendors = .ok r) ∧
    ∀ r, calculateBestDeal cart vendors = .ok r →
      (∀ i ∈ cart, ∃ m w,
        listMin (offeredPrices vendors i) = some m ∧
        vendors.find? (fun v => decide (priceOf v i = some m)) = some w ∧
        r.selection.lookup i = some w.name) ∧
      r.items_cost =
        round2 ((cart.map (fun i => (listMin (offeredPrices vendors i)).getD 0)).sum) := by
  have hoff' : ∀ i ∈ cart, ∃ nq, firstMin i vendors = some nq :=
    fun i hi => firstMin_isSome_of_offered i vendors (hoff i hi)
  constructor
  · obtain ⟨r, hr, -⟩ := calculateBestDeal_ok_spec cart vendors h1 h2 hval hoff'
    exact ⟨r, hr⟩
  · intro r hr
    obtain ⟨hinv, hkeys, -, -, hitems, -, -⟩ :=
      calculateBestDeal_ok_props cart vendors r hr
    constructor
    · intro i hi
      obtain ⟨nq, hfm⟩ := hoff' i hi
      obtain ⟨n, q⟩ := nq
      obtain ⟨w, hw, hwname, hwprice⟩ := firstMin_find? i vendors n q hfm
      refine ⟨q, w, firstMin_listMin i vendors n q hfm, hw, ?_⟩
      have hlook := lookup_eq_of_forall r.selection
        (fun k => ((firstMin k vendors).map Prod.fst).getD "")
        (fun p hp => by
          obtain ⟨q', hq'⟩ := hinv p hp
          show p.2 = ((firstMin p.1 vendors).map Prod.fst).getD ""
          rw [hq']
          rfl)
        i ((hkeys i).2 hi)
      rw [hlook]
      show some (((firstMin i vendors).map Prod.fst).getD "") = some w.name
      rw [hfm, hwname]
      rfl
    · rw [hitems]
      congr 1
      congr 1
      rw [List.map_eq_map_iff]
      intro i hi
      obtain ⟨nq, hfm⟩ := hoff' i hi
      obtain ⟨n, q⟩ := nq
      rw [hfm, firstMin_listMin i vendors n q hfm]
      rfl

/-- C1, witness: the amended theorem instantiated on `cartW`/`vendorsW`. -/
theorem bestDeal_assigns_first_minimum_witness :
    dealW.items_cost =
      round2 ((cartW.map (fun i => (listMin (offeredPrices vendorsW i)).getD 0)).sum) :=
  ((bestDeal_assigns_first_minimum cartW vendorsW
      (by with_unfolding_all decide) (by with_unfolding_all decide)
      (by with_unfolding_all decide) (by with_unfolding_all decide)).2
    dealW (by with_unfolding_all decide)).2

/-! ### Claims C2 and C9 -/

theorem contains_eq_of_mem_iff (l1 l2 : List String) (x : String)
    (h : x ∈ l1 ↔ x ∈ l2) : l1.contains x = l2.contains x :=
  Bool.coe_iff_coe.mp (List.elem_iff.trans (h.trans List.elem_iff.symm))

/-- C2: for every successful `calculateBestDeal` computation on a vendor
list with pairwise-distinct names, the reported `shipping_cost` is the sum
of the shipping fees of the distinct vendors appearing as values of the
selection — each used vendor charged exactly once however many cart items
it supplies — rounded to 2 decimals, and `cheapest_total` is the rounding
of the exact items cost plus that exact shipping sum. -/
theorem bestDeal_shipping_charged_once (cart : List String) (vendors : List Vendor)
    (r : BestDealResult)
    (hok : calculateBestDeal cart vendors = .ok r)
    (_hnames : (vendors.map Vendor.name).Nodup) :
    r.shipping_cost =
      round2 (((vendors.filter
        (fun v => (r.selection.map Prod.snd).contains v.name)).map shippingOf).sum) ∧
    r.items_cost =
      round2 ((cart.map (fun i => (listMin (offeredPrices vendors i)).getD 0)).sum) ∧
    r.cheapest_total =
      round2 ((cart.map (fun i => (listMin (offeredPrices vendors i)).getD 0)).sum
        + ((vendors.filter
            (fun v => (r.selection.map Prod.snd).contains v.name)).map shippingOf).sum) := by
  obtain ⟨-, -, -, hoff'⟩ := calculateBestDeal_ok_inversion cart vendors r hok
  obtain ⟨-, -, -, -, hitems, hship, htotal⟩ :=
    calculateBestDeal_ok_props cart vendors r hok
  have hfilter : vendors.filter (fun v => r.selected_vendors.contains v.name) =
      vendors.filter (fun v => (r.selection.map Prod.snd).contains v.name) :=
    List.filter_congr (fun v _ =>
      contains_eq_of_mem_iff r.selected_vendors (r.selection.map Prod.snd) v.name
        (mem_selection_values_iff cart vendors r hok v.name).symm)
  have hsum : (cart.map (fun i => ((firstMin i vendors).map Prod.snd).getD 0)).sum =
      (cart.map (fun i => (listMin (offeredPrices vendors i)).getD 0)).sum := by
    congr 1
    rw [List.map_eq_map_iff]
    intro i hi
    obtain ⟨nq, hfm⟩ := hoff' i hi
    obtain ⟨n, q⟩ := nq
    rw [hfm, firstMin_listMin i vendors n q hfm]
    rfl
  refine ⟨?_, ?_, ?_⟩
  · rw [hship, shippingTotal_eq_filter, hfilter]
  · rw [hitems, hsum]
  · rw [htotal, hsum, shippingTotal_eq_filter, hfilter]

/-- C2, witness: the shipping clause instantiated on `cartW`/`vendorsW`. -/
theorem bestDeal_shipping_charged_once_witness :
    dealW.shipping_cost =
      round2 (((vendorsW.filter
        (fun v => (dealW.selection.map Prod.snd).contains v.name)).map shippingOf).sum) :=
  (bestDeal_shipping_charged_once cartW vendorsW dealW
    (by with_unfolding_all decide) (by with_unfolding_all decide)).1

/-- C9: when a cart item name occurs at more than one position and
`calculateBestDeal` succeeds, the selection mapping holds exactly one entry
for that name (the association-list keys are duplicate-free), while
`items_cost` still counts the chosen minimum price once per cart position. -/
theorem bestDeal_duplicate_cart_items (cart : List String) (vendors : List Vendor)
    (r : BestDealResult) (name : String)
    (hok : calculateBestDeal cart vendors = .ok r)
    (hdup : 2 ≤ cart.count name) :
    (r.selection.map Prod.fst).Nodup ∧
    r.selection.countP (fun p => p.1 == name) = 1 ∧
    r.items_cost =
      round2 ((cart.map (fun i => (listMin (offeredPrices vendors i)).getD 0)).sum) := by
  obtain ⟨-, -, -, hoff'⟩ := calculateBestDeal_ok_inversion cart vendors r hok
  obtain ⟨-, hkeys, hnd, -, hitems, -, -⟩ :=
    calculateBestDeal_ok_props cart vendors r hok
  have hmem : name ∈ cart :=
    List.count_pos_iff.mp (lt_of_lt_of_le (by norm_num) hdup)
  refine ⟨hnd, countP_keys_nodup r.selection name hnd ((hkeys name).2 hmem), ?_⟩
  rw [hitems]
  congr 1
  congr 1
  rw [List.map_eq_map_iff]
  intro i hi
  obtain ⟨nq, hfm⟩ := hoff' i hi
  obtain ⟨n, q⟩ := nq
  rw [hfm, firstMin_listMin i vendors n q hfm]
  rfl

/-- C9, witness: instantiated on the duplicate cart `cartDup`. -/
theorem bestDeal_duplicate_cart_items_witness :
    dealDup.selection.countP (fun p => p.1 == "a") = 1 :=
  (bestDeal_duplicate_cart_items cartDup vendorsW dealDup "a"
    (by with_unfolding_all decide) (by with_unfolding_all decide)).2.1

/-! ### Claim C5 -/

/-- C5: on a non-empty cart and non-empty, all-valid vendor list,
`calculateBestDeal` fails with `ItemUnavailable` exactly when some cart item
is absent from the `items` mapping of every vendor; the item named by the
error is itself in the cart and offered by no vendor.  In particular an item
priced at zero is an offer — it is `some 0`, not absent — so it can never be
the item named by this failure. -/
theorem bestDeal_itemUnavailable_iff (cart : List String) (vendors : List Vendor)
    (h1 : cart ≠ []) (h2 : vendors ≠ [])
    (hval : ∀ v ∈ vendors, vendorValid v = true) :
    (∀ i, calculateBestDeal cart vendors = .error (.itemUnavailable i) →
      i ∈ cart ∧ ∀ v ∈ vendors, priceOf v i = none) ∧
    ((∃ i ∈ cart, ∀ v ∈ vendors, priceOf v i = none) →
      ∃ j, calculateBestDeal cart vendors = .error (.itemUnavailable j)) := by
  have hce : cart.isEmpty = false := by
    cases cart with
    | nil => exact absurd rfl h1
    | cons a l => rfl
  have hve : vendors.isEmpty = false := by
    cases vendors with
    | nil => exact absurd rfl h2
    | cons a l => rfl
  constructor
  · intro i h
    rw [calculateBestDeal, hce, hve, if_neg Bool.false_ne_true,
      if_neg Bool.false_ne_true] at h
    cases hb : bestDealLoop vendors cart [] [] 0 with
    | ok out =>
      obtain ⟨sel, used, cost⟩ := out
      rw [hb] at h
      cases h
    | error e =>
      rw [hb] at h
      dsimp only at h
      obtain ⟨j, hje, hjmem, hjnone⟩ :=
        bestDealLoop_error_unavailable vendors hval cart [] [] 0 e hb
      have hei : e = .itemUnavailable i := Except.error.inj h
      rw [hje] at hei
      obtain rfl := CalcError.itemUnavailable.inj hei
      exact ⟨hjmem, (firstMin_eq_none_iff j vendors).1 hjnone⟩
  · rintro ⟨i, hi, hnone⟩
    obtain ⟨j, hj, hjmem, hjnone⟩ :=
      bestDealLoop_error_of_unoffered vendors hval cart [] [] 0
        ⟨i, hi, (firstMin_eq_none_iff i vendors).2 hnone⟩
    refine ⟨j, ?_⟩
    rw [calculateBestDeal, hce, hve, if_neg Bool.false_ne_true,
      if_neg Bool.false_ne_true, hj]

/-- C5, witness: on the cart `["a", "zz"]` against `vendorsW` the failure
names "zz", which indeed no vendor offers. -/
theorem bestDeal_itemUnavailable_iff_witness :
    priceOf vendorA "zz" = none ∧ priceOf vendorB "zz" = none :=
  have h := ((bestDeal_itemUnavailable_iff ["a", "zz"] vendorsW
    (by with_unfolding_all decide) (by with_unfolding_all decide)
    (by with_unfolding_all decide)).1 "zz" (by with_unfolding_all decide))
  ⟨h.2 vendorA (by with_unfolding_all decide),
   h.2 vendorB (by with_unfolding_all decide)⟩

/-! ### Claim C6 -/

/-- C6: validation of vendor structure is asymmetric.  A structurally
malformed vendor anywhere in the list makes `calculateBestDeal` on any
non-empty cart fail with `InvalidVendor`, while `calculateSingleVendorCost`
on the same malformed vendor silently answers "not applicable" (`none`);
a vendor with an empty but present items mapping is structurally valid, and
an all-valid vendor list can never produce `InvalidVendor`. -/
theorem validation_asymmetry :
    (∀ (cart : List String) (vendors : List Vendor), cart ≠ [] →
      (∃ v ∈ vendors, vendorValid v = false) →
      calculateBestDeal cart vendors = .error .invalidVendor) ∧
    (∀ (cart : List String) (w : Vendor), vendorValid w = false →
      calculateSingleVendorCost cart w = none) ∧
    (∀ (n : String) (s : ℚ) (its : List (String × ℚ)), n ≠ "" →
      vendorValid ⟨n, some s, some its⟩ = true) ∧
    (∀ (cart : List String) (vendors : List Vendor),
      (∀ v ∈ vendors, vendorValid v = true) →
      calculateBestDeal cart vendors ≠ .error .invalidVendor) := by
  refine ⟨?_, ?_, ?_, ?_⟩
  · intro cart vendors h1 hbad
    have h2 : vendors ≠ [] := by
      rintro rfl
      obtain ⟨v, hv, -⟩ := hbad
      cases hv
    have hce : cart.isEmpty = false := by
      cases cart with
      | nil => exact absurd rfl h1
      | cons a l => rfl
    have hve : vendors.isEmpty = false := by
      cases vendors with
      | nil => exact absurd rfl h2
      | cons a l => rfl
    cases cart with
    | nil => exact absurd rfl h1
    | cons i rest =>
      rw [calculateBestDeal, hce, hve, if_neg Bool.false_ne_true,
        if_neg Bool.false_ne_true, bestDealLoop,
        scanVendors_invalid i vendors hbad (none, none)]
  · exact fun cart w h => singleVendorCost_invalid cart w h
  · intro n s its hn
    simp [vendorValid, hn]
  · intro cart vendors hval hc
    cases cart with
    | nil => simp [calculateBestDeal] at hc
    | cons i rest =>
      cases vendors with
      | nil => simp [calculateBestDeal] at hc
      | cons v vs =>
        rw [calculateBestDeal] at hc
        simp only [List.isEmpty_cons] at hc
        rw [if_neg Bool.false_ne_true, if_neg Bool.false_ne_true] at hc
        cases hb : bestDealLoop (v :: vs) (i :: rest) [] [] 0 with
        | ok out =>
          obtain ⟨sel, used, cost⟩ := out
          rw [hb] at hc
          cases hc
        | error e =>
          rw [hb] at hc
          dsimp only at hc
          obtain ⟨j, hje, -, -⟩ :=
            bestDealLoop_error_unavailable (v :: vs) hval (i :: rest) [] [] 0 e hb
          rw [hje] at hc
          cases Except.error.inj hc

/-- C6, witness: concrete instances of all four clauses. -/
theorem validation_asymmetry_witness :
    calculateBestDeal ["a"] [vendorG, vendorBad] = .error .invalidVendor ∧
    calculateSingleVendorCost ["a"] vendorBad = none ∧
    vendorValid ⟨"X", some 10, some []⟩ = true ∧
    calculateBestDeal ["a"] [vendorG] ≠ .error .invalidVendor :=
  ⟨validation_asymmetry.1 ["a"] [vendorG, vendorBad]
      (by with_unfolding_all decide) (by with_unfolding_all decide),
   validation_asymmetry.2.1 ["a"] vendorBad (by with_unfolding_all decide),
   validation_asymmetry.2.2.1 "X" 10 [] (by with_unfolding_all decide),
   validation_asymmetry.2.2.2 ["a"] [vendorG] (by with_unfolding_all decide)⟩

/-! ### Claim C10 -/

/-- C10: `calculateSingleVendorCost` does not enforce the non-empty-cart
precondition: applied to the empty cart and any structurally valid vendor it
returns a breakdown — not "not applicable" — with `items_cost` 0 and
`total_cost` equal to the vendor's shipping fee rounded to 2 decimals. -/
theorem singleVendorCost_empty_cart (v : Vendor) (h : vendorValid v = true) :
    calculateSingleVendorCost [] v =
      some ⟨v.name, 0, shippingOf v, round2 (shippingOf v)⟩ := by
  rw [singleVendorCost_eq_some [] v h (by intro i hi; cases hi)]
  simp [round2_zero]

/-- C10, witness: instantiated on `vendorG`, whose shipping fee is 1. -/
theorem singleVendorCost_empty_cart_witness :
    calculateSingleVendorCost [] vendorG =
      some ⟨vendorG.name, 0, shippingOf vendorG, round2 (shippingOf vendorG)⟩ :=
  singleVendorCost_empty_cart vendorG (by with_unfolding_all decide)

/-! ### Claim C4 -/

/-- C4: `getAllVendorComparisons` returns exactly the comparison entries of
the vendors that are structurally valid and whose items mapping contains
every cart item (a permutation of the kept `calculateSingleVendorCost`
results, whose presence is characterised by the second clause), sorted
ascending by `total_cost`; ties preserve the relative order of the input
vendor list (the entries of any fixed total cost appear in exactly their
input order), and an empty result — not an error — comes back when no
single vendor can fulfil the cart. -/
theorem allVendorComparisons_sorted_stable_complete
    (cart : List String) (vendors : List Vendor) :
    List.Perm (getAllVendorComparisons cart vendors)
      (vendors.filterMap (calculateSingleVendorCost cart)) ∧
    (∀ v, (calculateSingleVendorCost cart v).isSome ↔
      (vendorValid v = true ∧ ∀ i ∈ cart, (priceOf v i).isSome)) ∧
    (getAllVendorComparisons cart vendors).Pairwise
      (fun a b => a.total_cost ≤ b.total_cost) ∧
    (∀ k, (getAllVendorComparisons cart vendors).filter
        (fun c => decide (c.total_cost = k)) =
      (vendors.filterMap (calculateSingleVendorCost cart)).filter
        (fun c => decide (c.total_cost = k))) ∧
    ((∀ v ∈ vendors, calculateSingleVendorCost cart v = none) →
      getAllVendorComparisons cart vendors = []) := by
  refine ⟨sortComparisons_perm _,
    fun v => singleVendorCost_isSome_iff cart v,
    sortComparisons_pairwise _,
    fun k => sortComparisons_filter _ k,
    ?_⟩
  intro hnone
  rw [getAllVendorComparisons, List.filterMap_eq_nil_iff.mpr hnone]
  rfl

/-- C4, witness: a cart no single vendor can fulfil yields the empty
sequence. -/
theorem allVendorComparisons_empty_witness :
    getAllVendorComparisons ["zz"] [vendorG] = [] :=
  (allVendorComparisons_sorted_stable_complete ["zz"] [vendorG]).2.2.2.2
    (by with_unfolding_all decide)

/-! ### Claim C3 -/

/-- C3: whenever the underlying `calculateBestDeal` succeeds,
`analyzeCartDeal` succeeds as well and its `savings_analysis` satisfies: if
the comparison sequence is non-empty then `vs_cheapest_single_vendor` is
`comparisons[0].total_cost − optimal total`, `vs_most_expensive_vendor` is
`comparisons[last].total_cost − optimal total`, and — whenever the divisor
is non-zero — `percentage_saved` is
`(comparisons[last].total_cost − optimal total) / comparisons[last].total_cost × 100`,
each rounded to 2 decimals; if the comparison sequence is empty, all three
savings fields are zero and no error is raised. -/
theorem analyzeDeal_savings_formulas (cart : List String) (vendors : List Vendor)
    (d : BestDealResult) (hd : calculateBestDeal cart vendors = .ok d) :
    (∃ a, analyzeCartDeal cart vendors = .ok a) ∧
    ∀ a, analyzeCartDeal cart vendors = .ok a →
      a.optimal_deal = d ∧
      a.vendor_comparisons = getAllVendorComparisons cart vendors ∧
      (∀ c0 cl, a.vendor_comparisons.head? = some c0 →
        a.vendor_comparisons.getLast? = some cl →
        a.savings_analysis.vs_cheapest_single_vendor =
          round2 (c0.total_cost - d.cheapest_total) ∧
        a.savings_analysis.vs_most_expensive_vendor =
          round2 (cl.total_cost - d.cheapest_total) ∧
        (cl.total_cost ≠ 0 →
          a.savings_analysis.percentage_saved =
            some (round2 ((cl.total_cost - d.cheapest_total) / cl.total_cost * 100)))) ∧
      (a.vendor_comparisons = [] → a.savings_analysis = ⟨0, 0, some 0⟩) := by
  constructor
  · cases ha : analyzeCartDeal cart vendors with
    | error e =>
      rw [analyzeCartDeal, hd] at ha
      cases ha
    | ok a => exact ⟨a, rfl⟩
  · intro a ha
    rw [analyzeCartDeal, hd] at ha
    dsimp only at ha
    obtain rfl := Except.ok.inj ha
    refine ⟨rfl, rfl, ?_, ?_⟩
    · intro c0 cl h0 hl
      dsimp only at h0 hl
      dsimp only
      rw [h0, hl]
      dsimp only
      refine ⟨rfl, rfl, ?_⟩
      intro hne
      rw [if_neg hne]
    · intro hemp
      dsimp only at hemp
      dsimp only
      rw [hemp]
      rfl

/-- C3, witness: the cheapest-vendor clause on `cartW`/`vendorsW`, where the
comparisons are `[compB, compA]`. -/
theorem analyzeDeal_savings_formulas_witness :
    analysisW.savings_analysis.vs_cheapest_single_vendor =
      round2 (compB.total_cost - dealW.cheapest_total) :=
  (((analyzeDeal_savings_formulas cartW vendorsW dealW
        (by with_unfolding_all decide)).2 analysisW
      (by with_unfolding_all decide)).2.2.1 compB compA
    (by with_unfolding_all decide) (by with_unfolding_all decide)).1

/-! ### Claim C7 -/

/-- C7: the code does NOT implement the defensive value the spec demands.
On the cart `["a"]` with the single all-zero vendor `vendorZero`, the
most expensive single-vendor total is exactly 0 and the savings computation
reaches the division `(0 − 0) / 0`, whose JS result is the non-finite NaN
(modelled `none`) — propagated into `percentage_saved` instead of a defined
numeric value such as 0. -/
theorem percentage_saved_non_finite_on_zero_total :
    (getAllVendorComparisons ["a"] [vendorZero]).map
        (fun c => c.total_cost) = [0] ∧
    (analyzeCartDeal ["a"] [vendorZero]).map
        (fun a => a.savings_analysis.percentage_saved) = .ok none := by
  with_unfolding_all decide

/-! ### Claim C8 -/

/-- C8, counterexample: the `shipping_cost` field of a single-vendor
comparison entry is the raw `vendor.shipping`, not rounded.  With shipping
fee 1/8 = 0.125, both `calculateSingleVendorCost` and the entries of
`getAllVendorComparisons` report `shipping_cost = 0.125`, which is not a
2-decimal value (its rounding is 0.13 ≠ 0.125). -/
theorem singleVendorCost_shipping_not_rounded :
    (calculateSingleVendorCost ["x"] vendorEighth).map
        (fun c => c.shipping_cost) = some (1/8) ∧
    (getAllVendorComparisons ["x"] [vendorEighth]).map
        (fun c => c.shipping_cost) = [1/8] ∧
    round2 (1/8 : ℚ) ≠ (1/8 : ℚ) := by
  with_unfolding_all decide

/-- C8, amended: every monetary value in the outputs of the four functions
is rounded to 2 decimal places — except the `shipping_cost` field of a
single-vendor comparison entry, which is the vendor's raw shipping fee —
and rounding is applied once, at the output boundary, to exactly-computed
sums (the single-vendor `items_cost` and `total_cost` are the roundings of
one exact accumulated sum, not of previously rounded parts). -/
theorem rounding_at_output_boundaries :
    (∀ (cart : List String) (vendors : List Vendor) (r : BestDealResult),
      calculateBestDeal cart vendors = .ok r →
      isRounded2 r.cheapest_total ∧ isRounded2 r.items_cost ∧
        isRounded2 r.shipping_cost) ∧
    (∀ (cart : List String) (v : Vendor) (c : VendorComparison),
      calculateSingleVendorCost cart v = some c →
      isRounded2 c.items_cost ∧ isRounded2 c.total_cost ∧
      c.shipping_cost = shippingOf v ∧
      ∃ t, itemsTotalFrom v cart 0 = some t ∧
        c.items_cost = round2 t ∧ c.total_cost = round2 (t + shippingOf v)) ∧
    (∀ (cart : List String) (vendors : List Vendor) (c : VendorComparison),
      c ∈ getAllVendorComparisons cart vendors →
      isRounded2 c.items_cost ∧ isRounded2 c.total_cost ∧
      ∃ v ∈ vendors, c.shipping_cost = shippingOf v) ∧
    (∀ (cart : List String) (vendors : List Vendor) (a : Analysis),
      analyzeCartDeal cart vendors = .ok a →
      isRounded2 a.savings_analysis.vs_cheapest_single_vendor ∧
      isRounded2 a.savings_analysis.vs_most_expensive_vendor ∧
      ∀ p, a.savings_analysis.percentage_saved = some p → isRounded2 p) := by
  have hsvc : ∀ (cart : List String) (v : Vendor) (c : VendorComparison),
      calculateSingleVendorCost cart v = some c →
      isRounded2 c.items_cost ∧ isRounded2 c.total_cost ∧
      c.shipping_cost = shippingOf v ∧
      ∃ t, itemsTotalFrom v cart 0 = some t ∧
        c.items_cost = round2 t ∧ c.total_cost = round2 (t + shippingOf v) := by
    intro cart v c h
    obtain ⟨-, t, ht, rfl⟩ := singleVendorCost_some_fields cart v c h
    exact ⟨isRounded2_round2 t, isRounded2_round2 _, rfl, t, ht, rfl, rfl⟩
  refine ⟨?_, hsvc, ?_, ?_⟩
  · intro cart vendors r h
    obtain ⟨-, -, -, -, hitems, hship, htotal⟩ :=
      calculateBestDeal_ok_props cart vendors r h
    exact ⟨htotal ▸ isRounded2_round2 _, hitems ▸ isRounded2_round2 _,
      hship ▸ isRounded2_round2 _⟩
  · intro cart vendors c hc
    have hc' : c ∈ vendors.filterMap (calculateSingleVendorCost cart) :=
      (sortComparisons_perm _).mem_iff.1 hc
    obtain ⟨v, hv, hsome⟩ := List.mem_filterMap.mp hc'
    obtain ⟨h1, h2, h3, -⟩ := hsvc cart v c hsome
    exact ⟨h1, h2, v, hv, h3⟩
  · intro cart vendors a ha
    rw [analyzeCartDeal] at ha
    cases hd : calculateBestDeal cart vendors with
    | error e => rw [hd] at ha; cases ha
    | ok d =>
      rw [hd] at ha
      dsimp only at ha
      obtain rfl := Except.ok.inj ha
      dsimp only
      cases h0 : (getAllVendorComparisons cart vendors).head? with
      | none =>
        cases hl : (getAllVendorComparisons cart vendors).getLast? with
        | none =>
          exact ⟨isRounded2_zero, isRounded2_zero,
            fun p hp => (Option.some.inj hp) ▸ isRounded2_zero⟩
        | some cl =>
          exact ⟨isRounded2_zero, isRounded2_zero,
            fun p hp => (Option.some.inj hp) ▸ isRounded2_zero⟩
      | some c0 =>
        cases hl : (getAllVendorComparisons cart vendors).getLast? with
        | none =>
          exact ⟨isRounded2_zero, isRounded2_zero,
            fun p hp => (Option.some.inj hp) ▸ isRounded2_zero⟩
        | some cl =>
          refine ⟨isRounded2_round2 _, isRounded2_round2 _, ?_⟩
          intro p hp
          dsimp only at hp
          by_cases hz : cl.total_cost = 0
          · rw [if_pos hz] at hp
            cases hp
          · rw [if_neg hz] at hp
            exact (Option.some.inj hp) ▸ isRounded2_round2 _

/-- C8, witness: the amended claim instantiated on concrete outputs. -/
theorem rounding_at_output_boundaries_witness :
    isRounded2 dealW.cheapest_total ∧ isRounded2 compB.items_cost :=
  ⟨(rounding_at_output_boundaries.1 cartW vendorsW dealW
      (by with_unfolding_all decide)).1,
   (rounding_at_output_boundaries.2.1 cartW vendorB compB
      (by with_unfolding_all decide)).1⟩

end BestCart
